import Mathlib

/-!
Shallow embedding of the `lifegame-rust` core engine
(`src/lifegame-core/src/lib.rs`), of the shell's tick/generation logic
(`src/lifegame-tui/src/app.rs`), and of the padded-border implementation
(`src/lifegame-core/src/legacy.rs`), together with theorems settling the
specification claims.

Modelling conventions:
* Rust `bool` cells are Lean `Bool`; `BitVec` is `List Bool`.
* `usize` is `Nat`, `isize` is `Int`; Rust's truncating `%` on `isize` is
  `Int.tmod`, `.abs()` is `Int.natAbs` (coerced back to `Int`).
* Fallible operations (`Result`) return `Except WorldError _`; the two error
  conditions of the design are `InvalidSize` and `OutOfBounds`.
* Operations whose Rust code can panic on out-of-range indexing (BitVec `[]`
  and `set`, remainder by zero) additionally get a `..Checked` variant
  returning `Option`, where `none` models the panic; the plain variant uses
  `getD`/`List.set` totalizations and is the one related to the checked
  variant by the safety theorems.
-/

namespace Lifegame

inductive WorldBound where
  | Plane
  | Torus
deriving DecidableEq, Repr

inductive WorldError where
  | InvalidSize
  | OutOfBounds
deriving DecidableEq, Repr

def CELL_DEAD : Bool := false
def CELL_ALIVE : Bool := true

/-- `fn get_index_with_cyclic_bound(ix: isize, bound: isize) -> isize`.
Rust `%` on `isize` is truncating remainder (`Int.tmod`); `.abs()` is the
absolute value. -/
def get_index_with_cyclic_bound (ix bound : Int) : Int :=
  if ix < 0 then ((Int.tmod (ix + bound) bound).natAbs : Int)
  else if bound ≤ ix then Int.tmod ix bound
  else ix

structure World where
  nx : Nat
  ny : Nat
  cells : List Bool
  border : WorldBound
deriving DecidableEq, Repr

/-- `fn to_bitvec(bits: &[bool]) -> BitVec`: pushes each bit in order into a
fresh bit vector. -/
def to_bitvec (bits : List Bool) : List Bool :=
  bits.foldl (fun acc b => acc ++ [b]) []

/-- `World::new(nx, ny, cells)`: fails when `cells.len() != nx * ny`
(the design's `InvalidSize` condition), otherwise stores the bits with
border `Plane`. -/
def World.new (nx ny : Nat) (cells : List Bool) : Except WorldError World :=
  if cells.length ≠ nx * ny then .error .InvalidSize
  else .ok { nx := nx, ny := ny, cells := to_bitvec cells, border := .Plane }

/-- `World::border(&mut self, border)`: the boundary-mode setter (named
`set_border` here because `border` is the field's name). -/
def World.set_border (w : World) (b : WorldBound) : World :=
  { w with border := b }

/-- `fn bit_index(&self, ix, iy) -> usize`. -/
def World.bit_index (w : World) (ix iy : Nat) : Nat :=
  iy * w.nx + ix

/-- `World::cell(ix, iy) = self.cells[self.bit_index(ix, iy)]`, totalized with
default `false`; in-bounds accesses agree with the checked variant. -/
def World.cell (w : World) (ix iy : Nat) : Bool :=
  w.cells.getD (w.bit_index ix iy) false

/-- Checked variant of `World::cell`: the BitVec indexing panic on an
out-of-range flat index surfaces as the design's `OutOfBounds` condition. -/
def World.cellChecked (w : World) (ix iy : Nat) : Except WorldError Bool :=
  match w.cells[w.bit_index ix iy]? with
  | some b => .ok b
  | none => .error .OutOfBounds

/-- `World::get_cell_with_border(&self, ix: isize, iy: isize)`. -/
def World.get_cell_with_border (w : World) (ix iy : Int) : Bool :=
  match w.border with
  | .Plane =>
      if ix < 0 ∨ iy < 0 ∨ (w.nx : Int) ≤ ix ∨ (w.ny : Int) ≤ iy then CELL_DEAD
      else w.cell ix.toNat iy.toNat
  | .Torus =>
      w.cell (get_index_with_cyclic_bound ix (w.nx : Int)).toNat
        (get_index_with_cyclic_bound iy (w.ny : Int)).toNat

/-- `World::neighbours(ix, iy)`: the Moore-neighbour bitmap in source order
NW, N, NE, W, E, SW, S, SE. -/
def World.neighbours (w : World) (ix iy : Nat) : List Bool :=
  to_bitvec [
    w.get_cell_with_border ((ix : Int) - 1) ((iy : Int) - 1),
    w.get_cell_with_border (ix : Int) ((iy : Int) - 1),
    w.get_cell_with_border ((ix : Int) + 1) ((iy : Int) - 1),
    w.get_cell_with_border ((ix : Int) - 1) (iy : Int),
    w.get_cell_with_border ((ix : Int) + 1) (iy : Int),
    w.get_cell_with_border ((ix : Int) - 1) ((iy : Int) + 1),
    w.get_cell_with_border (ix : Int) ((iy : Int) + 1),
    w.get_cell_with_border ((ix : Int) + 1) ((iy : Int) + 1)]

/-- `self.neighbours(ix, iy).iter().filter(|x| *x).count()`. -/
def World.num_alive_neighbours (w : World) (ix iy : Nat) : Nat :=
  ((w.neighbours ix iy).filter (fun x => x)).length

/-- The per-cell body of `World::next`: the `match cell` expression computing
the next state from the current state and the alive-neighbour count. -/
def World.next_cell_value (w : World) (ix iy : Nat) : Bool :=
  match w.cell ix iy with
  | false => if w.num_alive_neighbours ix iy = 3 then CELL_ALIVE else CELL_DEAD
  | true =>
      if w.num_alive_neighbours ix iy ≤ 1 then CELL_DEAD
      else if w.num_alive_neighbours ix iy = 2 ∨ w.num_alive_neighbours ix iy = 3 then CELL_ALIVE
      else CELL_DEAD

/-- `World::next`: a fresh all-dead buffer of the old length is filled by the
double loop `for iy in 0..ny { for ix in 0..nx { .. } }` writing
`next_cell_value` at `bit_index(ix, iy)`, then replaces the old buffer. -/
def World.next (w : World) : World :=
  let next_cells :=
    (List.range w.ny).foldl (fun buf iy =>
      (List.range w.nx).foldl (fun buf2 ix =>
        buf2.set (w.bit_index ix iy) (w.next_cell_value ix iy)) buf)
      (List.replicate w.cells.length false)
  { w with cells := next_cells }

/-- Checked variant of `get_index_with_cyclic_bound`: Rust's `%` panics on a
zero divisor, modelled by `none`. -/
def get_index_with_cyclic_boundChecked (ix bound : Int) : Option Int :=
  if ix < 0 then
    if bound = 0 then none else some ((Int.tmod (ix + bound) bound).natAbs : Int)
  else if bound ≤ ix then
    if bound = 0 then none else some (Int.tmod ix bound)
  else some ix

/-- Checked variant of `World.cell`: `none` models the BitVec indexing panic. -/
def World.cellOpt (w : World) (ix iy : Nat) : Option Bool :=
  w.cells[w.bit_index ix iy]?

/-- Checked variant of `World.get_cell_with_border`: a negative resolved
coordinate cast `as usize` wraps far out of range and the subsequent indexing
panics, so it is modelled by `none`. -/
def World.get_cell_with_borderChecked (w : World) (ix iy : Int) : Option Bool :=
  match w.border with
  | .Plane =>
      if ix < 0 ∨ iy < 0 ∨ (w.nx : Int) ≤ ix ∨ (w.ny : Int) ≤ iy then some CELL_DEAD
      else w.cellOpt ix.toNat iy.toNat
  | .Torus => do
      let i ← get_index_with_cyclic_boundChecked ix (w.nx : Int)
      let j ← get_index_with_cyclic_boundChecked iy (w.ny : Int)
      if i < 0 ∨ j < 0 then none else w.cellOpt i.toNat j.toNat

/-- Checked variant of `World.neighbours`. -/
def World.neighboursChecked (w : World) (ix iy : Nat) : Option (List Bool) := do
  let c0 ← w.get_cell_with_borderChecked ((ix : Int) - 1) ((iy : Int) - 1)
  let c1 ← w.get_cell_with_borderChecked (ix : Int) ((iy : Int) - 1)
  let c2 ← w.get_cell_with_borderChecked ((ix : Int) + 1) ((iy : Int) - 1)
  let c3 ← w.get_cell_with_borderChecked ((ix : Int) - 1) (iy : Int)
  let c4 ← w.get_cell_with_borderChecked ((ix : Int) + 1) (iy : Int)
  let c5 ← w.get_cell_with_borderChecked ((ix : Int) - 1) ((iy : Int) + 1)
  let c6 ← w.get_cell_with_borderChecked (ix : Int) ((iy : Int) + 1)
  let c7 ← w.get_cell_with_borderChecked ((ix : Int) + 1) ((iy : Int) + 1)
  pure (to_bitvec [c0, c1, c2, c3, c4, c5, c6, c7])

/-- Checked variant of the per-cell body of `World::next`. -/
def World.next_cell_valueChecked (w : World) (ix iy : Nat) : Option Bool := do
  let cell ← w.cellOpt ix iy
  let ns ← w.neighboursChecked ix iy
  let n := (ns.filter (fun x => x)).length
  pure (match cell with
    | false => if n = 3 then CELL_ALIVE else CELL_DEAD
    | true =>
        if n ≤ 1 then CELL_DEAD
        else if n = 2 ∨ n = 3 then CELL_ALIVE
        else CELL_DEAD)

/-- Checked variant of `World::next`: every BitVec read and the buffer `set`
(which also panics out of range) is guarded; `none` models any panic. -/
def World.nextChecked (w : World) : Option World := do
  let next_cells ←
    (List.range w.ny).foldlM (fun buf iy =>
      (List.range w.nx).foldlM (fun buf2 ix => do
        let v ← w.next_cell_valueChecked ix iy
        if w.bit_index ix iy < buf2.length then pure (buf2.set (w.bit_index ix iy) v)
        else none) buf)
      (List.replicate w.cells.length false)
  pure { w with cells := next_cells }

inductive AppState where
  | Run
  | Pause
  | Quit
deriving DecidableEq, Repr

/-- The shell state (`lifegame-tui/src/app.rs`, `struct App`), restricted to
the fields the engine-facing behaviour depends on; `alive_prob: f64` only
parameterizes random sampling and is not modelled (the sampled cell list is
passed explicitly where needed). `gen: u64` is a `Nat` kept below `2^64`. -/
structure App where
  gen : Nat
  state : AppState
  nx : Nat
  ny : Nat
  world : World
  rendering_ix : Nat
  rendering_iy : Nat
deriving Repr

def U64_MAX : Nat := 2 ^ 64 - 1

/-- `u64::saturating_add(1)` as used in `App::tick`. -/
def u64_saturating_succ (g : Nat) : Nat :=
  min (g + 1) U64_MAX

/-- `App::tick`: when running, saturating-increment the generation counter and
advance the world; otherwise do nothing. -/
def App.tick (a : App) : App :=
  if a.state = AppState.Run then
    { a with gen := u64_saturating_succ a.gen, world := a.world.next }
  else a

/-- `App::default` with the randomly sampled cell list abstracted as a
parameter (`random_cells(120, 60, 0.2)` always yields `120 * 60` cells, so the
`expect` cannot fire on the real sampler; an ill-sized list surfaces the
constructor error here). -/
def App.default_with (cells : List Bool) : Except WorldError App :=
  (World.new 120 60 cells).map (fun w =>
    { gen := 0, state := AppState.Pause, nx := 120, ny := 60, world := w,
      rendering_ix := 0, rendering_iy := 0 })

end Lifegame

namespace Legacy

/-!
Embedding of `src/lifegame-core/src/legacy.rs` (the padded-border lineage).
All cell reads and buffer writes are kept checked (`Option`), since the
theorems about this module concern precisely whether its indexing stays in
bounds. The `Box<dyn CellLocatable>` produced by `make_cell_identifier` is
represented by the `WorldBound` tag it was built from, dispatched at
`get_neighbour_cell`; the trait's default `get_cell`/`get_cell_index` are
shared free functions.
-/

open Lifegame (WorldBound CELL_DEAD CELL_ALIVE)

/-- Legacy `get_index_with_cyclic_bound` (identical text to the current one). -/
def get_index_with_cyclic_bound (ix bound : Int) : Int :=
  if ix < 0 then ((Int.tmod (ix + bound) bound).natAbs : Int)
  else if bound ≤ ix then Int.tmod ix bound
  else ix

structure WorldConfig where
  nx : Nat
  ny : Nat
  cells : List Bool
deriving DecidableEq, Repr

/-- `CellLocatable::get_cell_index` (the trait default): `iy * config.nx + ix`. -/
def config_cell_index (config : WorldConfig) (ix iy : Nat) : Nat :=
  iy * config.nx + ix

/-- `CellLocatable::get_cell` (the trait default), checked: `none` models the
BitVec indexing panic. -/
def config_get_cell (config : WorldConfig) (ix iy : Nat) : Option Bool :=
  config.cells[config_cell_index config ix iy]?

/-- `get_neighbour_cell` of the locator built by `make_cell_identifier`,
dispatched on the bound tag. -/
def get_neighbour_cell (bound : WorldBound) (config : WorldConfig) (ix iy : Int) :
    Option Bool :=
  match bound with
  | .Plane =>
      if ix < 0 ∨ iy < 0 ∨ (config.nx : Int) ≤ ix ∨ (config.ny : Int) ≤ iy then
        some CELL_DEAD
      else config_get_cell config ix.toNat iy.toNat
  | .Torus => do
      let i := get_index_with_cyclic_bound ix (config.nx : Int)
      let j := get_index_with_cyclic_bound iy (config.ny : Int)
      if (config.nx : Int) = 0 ∨ (config.ny : Int) = 0 ∨ i < 0 ∨ j < 0 then none
      else config_get_cell config i.toNat j.toNat

/-- Legacy `to_bitvec(nx, ny, bits)`: a `(nx+2)*(ny+2)` all-dead buffer whose
entry `nx * iy + ix` is set to `bits[(nx - 1) * (iy - 1) + ix - 1]` for
`iy in 1..=ny`, `ix in 1..=nx`; slice-index and `set` panics are `none`. -/
def to_bitvec (nx ny : Nat) (bits : List Bool) : Option (List Bool) :=
  (List.range ny).foldlM (fun bv iy0 =>
    (List.range nx).foldlM (fun bv2 ix0 => do
      let iy := iy0 + 1
      let ix := ix0 + 1
      let b ← bits[(nx - 1) * (iy - 1) + ix - 1]?
      if nx * iy + ix < bv2.length then pure (bv2.set (nx * iy + ix) b)
      else none) bv)
    (List.replicate ((nx + 2) * (ny + 2)) CELL_DEAD)

structure World where
  config : WorldConfig
  locator : WorldBound
deriving DecidableEq, Repr

/-- Legacy `World::new`: validates `cells.len() == nx * ny` then stores a
padded `(nx+2) × (ny+2)` configuration with a `Plane` locator. An `Err`
result and a panic inside `to_bitvec` are both modelled as `none`. -/
def World.new (nx ny : Nat) (cells : List Bool) : Option World :=
  if cells.length ≠ nx * ny then none
  else (to_bitvec nx ny cells).map (fun bv =>
    { config := { nx := nx + 2, ny := ny + 2, cells := bv }, locator := .Plane })

/-- Legacy `World::set_bound`. -/
def World.set_bound (w : World) (wb : WorldBound) : World :=
  { w with locator := wb }

/-- Legacy `World::get_cell`: delegates to the locator's (trait-default,
unguarded) `get_cell`. -/
def World.get_cell (w : World) (ix iy : Nat) : Option Bool :=
  config_get_cell w.config ix iy

/-- Legacy `World::get_cell_index`: `ix + iy` (as written in the source). -/
def World.get_cell_index (_w : World) (ix iy : Nat) : Nat :=
  ix + iy

/-- Legacy `World::count_alive_neighbours`: eight unguarded `get_cell` reads
(`usize` offsets; the callers only pass `ix, iy ≥ 1`, matching truncated
subtraction) summed as `u8`. -/
def World.count_alive_neighbours (w : World) (ix iy : Nat) : Option Nat := do
  let c0 ← w.get_cell (ix - 1) (iy - 1)
  let c1 ← w.get_cell ix (iy - 1)
  let c2 ← w.get_cell (ix + 1) (iy - 1)
  let c3 ← w.get_cell (ix - 1) iy
  let c4 ← w.get_cell (ix + 1) iy
  let c5 ← w.get_cell (ix - 1) (iy + 1)
  let c6 ← w.get_cell ix (iy + 1)
  let c7 ← w.get_cell (ix + 1) (iy + 1)
  pure (c0.toNat + c1.toNat + c2.toNat + c3.toNat + c4.toNat + c5.toNat +
    c6.toNat + c7.toNat)

/-- Legacy `World::next`: loops `iy in 1..=config.ny`, `ix in 1..=config.nx`
over a fresh all-dead buffer of the old length, writing
`num == 3 || (num == 2 && cell)` at `get_cell_index(ix, iy)`. -/
def World.next (w : World) : Option World := do
  let next_cells ←
    (List.range w.config.ny).foldlM (fun buf iy0 =>
      (List.range w.config.nx).foldlM (fun buf2 ix0 => do
        let iy := iy0 + 1
        let ix := ix0 + 1
        let cell ← w.get_cell ix iy
        let num ← w.count_alive_neighbours ix iy
        let nxt := num == 3 || (num == 2 && cell)
        if w.get_cell_index ix iy < buf2.length then
          pure (buf2.set (w.get_cell_index ix iy) nxt)
        else none) buf)
      (List.replicate w.config.cells.length false)
  pure { w with config := { w.config with cells := next_cells } }

end Legacy

namespace Lifegame

/-! ### Sanity checks against the repository's own unit tests -/

example : to_bitvec [true, false, true] = [true, false, true] := by decide

-- the `test_cyclic_bound` assertions of `lib.rs`
example : get_index_with_cyclic_bound (-21) 10 = 1 := by decide
example : get_index_with_cyclic_bound (-1) 10 = 9 := by decide
example : get_index_with_cyclic_bound 0 10 = 0 := by decide
example : get_index_with_cyclic_bound 9 10 = 9 := by decide
example : get_index_with_cyclic_bound 10 10 = 0 := by decide
example : get_index_with_cyclic_bound 21 10 = 1 := by decide

-- the `rule_born` test: [1,1,0 / 1,0,0 / 0,0,0] steps to [1,1,0 / 1,1,0 / 0,0,0]
example :
    (World.next
      { nx := 3, ny := 3,
        cells := [true, true, false, true, false, false, false, false, false],
        border := .Plane }).cells =
      [true, true, false, true, true, false, false, false, false] := by decide

-- the `rule_dead_with_overpopulated` test
example :
    (World.next
      { nx := 3, ny := 3,
        cells := [true, true, true, true, true, false, false, false, false],
        border := .Plane }).cells =
      [true, false, true, true, false, true, false, false, false] := by decide

-- the `test_neighbour` torus assertions on the 2×2 world [1,0 / 0,1]
example :
    (⟨2, 2, [true, false, false, true], WorldBound.Torus⟩ : World).get_cell_with_border
      (-1) (-1) = CELL_ALIVE := by decide
example :
    (⟨2, 2, [true, false, false, true], WorldBound.Torus⟩ : World).get_cell_with_border
      (-1) 0 = CELL_DEAD := by decide
example :
    (⟨2, 2, [true, false, false, true], WorldBound.Torus⟩ : World).get_cell_with_border
      2 2 = CELL_ALIVE := by decide

/-! ### Helper lemmas -/

theorem foldl_push_eq_append (l acc : List Bool) :
    l.foldl (fun a b => a ++ [b]) acc = acc ++ l := by
  induction l generalizing acc with
  | nil => simp
  | cons x xs ih => simp [List.foldl, ih]

theorem to_bitvec_eq_self (l : List Bool) : to_bitvec l = l := by
  simp [to_bitvec, foldl_push_eq_append]

theorem natAbs_tmod_eq (a b : Int) :
    (Int.tmod a b).natAbs = a.natAbs % b.natAbs := by
  cases a <;> cases b <;> simp [Int.tmod, Int.natAbs_neg] <;> norm_cast

/-- The wrapped index is always within `[0, b)` for a positive bound. -/
theorem cyclic_bound_range (c b : Int) (hb : 0 < b) :
    0 ≤ get_index_with_cyclic_bound c b ∧ get_index_with_cyclic_bound c b < b := by
  have hb0 : b ≠ 0 := ne_of_gt hb
  have hbabs : (b.natAbs : Int) = b := Int.natAbs_of_nonneg (le_of_lt hb)
  have habs : ∀ x : Int, ((Int.tmod x b).natAbs : Int) < b := by
    intro x
    have h1 : (Int.tmod x b).natAbs < b.natAbs := by
      rw [natAbs_tmod_eq]
      exact Nat.mod_lt _ (Int.natAbs_pos.mpr hb0)
    calc ((Int.tmod x b).natAbs : Int) < (b.natAbs : Int) := by exact_mod_cast h1
      _ = b := hbabs
  unfold get_index_with_cyclic_bound
  split_ifs with h1 h2
  · exact ⟨Int.ofNat_nonneg _, habs _⟩
  · refine ⟨Int.tmod_nonneg _ (by omega), Int.tmod_lt_of_pos _ hb⟩
  · omega

/-- On inputs at least `-b`, the code's wrapped index agrees with the proper
modulo `((c % b) + b) % b` (with `%` the mathematical, always-nonnegative
modulo). -/
theorem cyclic_bound_eq_proper_mod (c b : Int) (hb : 0 < b) (hc : -b ≤ c) :
    get_index_with_cyclic_bound c b = ((c % b) + b) % b := by
  have hb0 : b ≠ 0 := ne_of_gt hb
  have key : ∀ x : Int, (x + b) % b = x % b := by
    intro x
    have h := Int.add_mul_emod_self_left x b 1
    rw [mul_one] at h
    exact h
  unfold get_index_with_cyclic_bound
  split_ifs with h1 h2
  · rw [Int.tmod_eq_emod (by omega) (le_of_lt hb),
      Int.natAbs_of_nonneg (Int.emod_nonneg _ hb0), key c, key (c % b), Int.emod_emod]
  · rw [Int.tmod_eq_emod (by omega) (le_of_lt hb), key (c % b), Int.emod_emod]
  · rw [key (c % b), Int.emod_emod, Int.emod_eq_of_lt (by omega) (by omega)]

/-- Folding index-wise `set`s over any list preserves the buffer length. -/
theorem foldl_set_length {α : Type} (idx : α → Nat) (v : α → Bool) (l : List α)
    (buf : List Bool) :
    (l.foldl (fun b i => b.set (idx i) (v i)) buf).length = buf.length := by
  induction l generalizing buf with
  | nil => rfl
  | cons a l ih => simp [List.foldl, ih, List.length_set]

/-- Any fold whose step preserves length preserves length. -/
theorem foldl_length_invariant {α : Type} (f : List Bool → α → List Bool)
    (hf : ∀ b a, (f b a).length = b.length) (l : List α) (buf : List Bool) :
    (l.foldl f buf).length = buf.length := by
  induction l generalizing buf with
  | nil => rfl
  | cons a l ih => simp [List.foldl, ih, hf]

/-- Reading back a row of writes at offsets `off + i`, `i < n`. -/
theorem range_foldl_set_getElem (g : Nat → Bool) (n off : Nat) (buf : List Bool)
    (j : Nat) (hj : j < buf.length) :
    ((List.range n).foldl (fun b i => b.set (off + i) (g i)) buf)[j]? =
      if off ≤ j ∧ j < off + n then some (g (j - off)) else buf[j]? := by
  induction n with
  | zero =>
      rw [if_neg (by omega)]
      rfl
  | succ n ih =>
      rw [List.range_succ, List.foldl_append]
      simp only [List.foldl_cons, List.foldl_nil]
      have hlen : ((List.range n).foldl (fun b i => b.set (off + i) (g i)) buf).length
          = buf.length := foldl_set_length _ _ _ _
      rw [List.getElem?_set]
      by_cases he : off + n = j
      · rw [if_pos he, if_pos (by omega), if_pos (by omega)]
        have : j - off = n := by omega
        rw [this]
      · rw [if_neg he, ih]
        by_cases h1 : off ≤ j ∧ j < off + n
        · rw [if_pos h1, if_pos (by omega)]
        · rw [if_neg h1, if_neg (by omega)]

/-- Reading back the whole row-major double loop of writes. -/
theorem range2_foldl_set_getElem (g : Nat → Nat → Bool) (n m : Nat)
    (buf : List Bool) (j : Nat) (hj : j < buf.length) :
    ((List.range m).foldl (fun b iy =>
        (List.range n).foldl (fun b2 ix => b2.set (iy * n + ix) (g ix iy)) b)
      buf)[j]? =
      if j < n * m then some (g (j % n) (j / n)) else buf[j]? := by
  induction m with
  | zero =>
      rw [if_neg (by omega)]
      rfl
  | succ m ih =>
      rw [List.range_succ, List.foldl_append]
      simp only [List.foldl_cons, List.foldl_nil]
      have hlen : ((List.range m).foldl (fun b iy =>
          (List.range n).foldl (fun b2 ix => b2.set (iy * n + ix) (g ix iy)) b)
            buf).length = buf.length := by
        refine foldl_length_invariant _ (fun b a => ?_) _ _
        exact foldl_set_length _ _ _ _
      rw [range_foldl_set_getElem (fun ix => g ix m) n (m * n)
        ((List.range m).foldl (fun b iy =>
          (List.range n).foldl (fun b2 ix => b2.set (iy * n + ix) (g ix iy)) b) buf)
        j (by rw [hlen]; exact hj)]
      have hmul : n * (m + 1) = n * m + n := by ring
      have hcomm : m * n = n * m := by ring
      by_cases h1 : m * n ≤ j ∧ j < m * n + n
      · rw [if_pos h1, if_pos (by omega)]
        have hd : j / n = m :=
          Nat.div_eq_of_lt_le h1.1 (by rw [Nat.succ_mul]; exact h1.2)
        have hx : n * m + j % n = j := by
          have h := Nat.div_add_mod j n
          rw [hd] at h
          exact h
        have hm : j - m * n = j % n := by
          conv_lhs => rw [hcomm, ← hx]
          rw [Nat.add_sub_cancel_left]
        rw [hd, hm]
      · rw [if_neg h1, ih]
        by_cases h2 : j < n * m
        · rw [if_pos h2, if_pos (by omega)]
        · rw [if_neg h2, if_neg (by omega)]

theorem bit_index_lt (w : World) (ix iy : Nat) (hx : ix < w.nx) (hy : iy < w.ny) :
    w.bit_index ix iy < w.nx * w.ny := by
  have h1 : w.bit_index ix iy < (iy + 1) * w.nx := by
    unfold World.bit_index
    calc iy * w.nx + ix < iy * w.nx + w.nx := by omega
      _ = (iy + 1) * w.nx := by ring
  calc w.bit_index ix iy < (iy + 1) * w.nx := h1
    _ ≤ w.ny * w.nx := Nat.mul_le_mul_right _ (by omega)
    _ = w.nx * w.ny := by ring

/-- The buffer produced by `next`'s double loop holds, at each in-grid flat
index, exactly the per-cell rule value computed from the old world. -/
theorem next_cell_get (w : World) (hv : w.cells.length = w.nx * w.ny)
    (ix iy : Nat) (hx : ix < w.nx) (hy : iy < w.ny) :
    (w.next).cell ix iy = w.next_cell_value ix iy := by
  have hidx : iy * w.nx + ix < w.nx * w.ny := bit_index_lt w ix iy hx hy
  have hrepl : (List.replicate w.cells.length false).length = w.cells.length :=
    List.length_replicate _ _
  unfold World.next World.cell
  simp only [World.bit_index]
  rw [List.getD_eq_getElem?_getD]
  rw [range2_foldl_set_getElem (World.next_cell_value w) w.nx w.ny
    (List.replicate w.cells.length false) (iy * w.nx + ix) (by omega)]
  rw [if_pos hidx]
  have hmod : (iy * w.nx + ix) % w.nx = ix := by
    have h : iy * w.nx + ix = ix + w.nx * iy := by ring
    rw [h, Nat.add_mul_mod_self_left, Nat.mod_eq_of_lt hx]
  have hdiv : (iy * w.nx + ix) / w.nx = iy := by
    have h : iy * w.nx + ix = ix + w.nx * iy := by ring
    rw [h, Nat.add_mul_div_left _ _ (by omega), Nat.div_eq_of_lt hx, Nat.zero_add]
  rw [hmod, hdiv]
  rfl

/-! ### Checked accesses succeed on valid worlds -/

theorem cellOpt_eq_cell (w : World) (ix iy : Nat)
    (h : w.bit_index ix iy < w.cells.length) :
    w.cellOpt ix iy = some (w.cell ix iy) := by
  unfold World.cellOpt World.cell
  rw [List.getElem?_eq_getElem h, List.getD_eq_getElem?_getD, List.getElem?_eq_getElem h]
  rfl

theorem cyclic_boundChecked_eq (ix b : Int) (hb : b ≠ 0) :
    get_index_with_cyclic_boundChecked ix b = some (get_index_with_cyclic_bound ix b) := by
  unfold get_index_with_cyclic_boundChecked get_index_with_cyclic_bound
  split_ifs <;> simp_all

theorem get_cell_with_borderChecked_eq (w : World)
    (hv : w.cells.length = w.nx * w.ny) (hnx : 0 < w.nx) (hny : 0 < w.ny)
    (ix iy : Int) :
    w.get_cell_with_borderChecked ix iy = some (w.get_cell_with_border ix iy) := by
  unfold World.get_cell_with_borderChecked World.get_cell_with_border
  cases hb : w.border with
  | Plane =>
      split_ifs with h
      · rfl
      · push_neg at h
        refine cellOpt_eq_cell w _ _ ?_
        have hx : ix.toNat < w.nx := by omega
        have hy : iy.toNat < w.ny := by omega
        have := bit_index_lt w ix.toNat iy.toNat hx hy
        omega
  | Torus =>
      have hnx0 : (w.nx : Int) ≠ 0 := by omega
      have hny0 : (w.ny : Int) ≠ 0 := by omega
      rw [cyclic_boundChecked_eq ix _ hnx0, cyclic_boundChecked_eq iy _ hny0]
      have hxr := cyclic_bound_range ix (w.nx : Int) (by omega)
      have hyr := cyclic_bound_range iy (w.ny : Int) (by omega)
      simp only [Option.bind_eq_bind, Option.some_bind]
      rw [if_neg (by omega)]
      refine cellOpt_eq_cell w _ _ ?_
      have hx : (get_index_with_cyclic_bound ix (w.nx : Int)).toNat < w.nx := by omega
      have hy : (get_index_with_cyclic_bound iy (w.ny : Int)).toNat < w.ny := by omega
      have := bit_index_lt w _ _ hx hy
      omega

theorem neighboursChecked_eq (w : World)
    (hv : w.cells.length = w.nx * w.ny) (hnx : 0 < w.nx) (hny : 0 < w.ny)
    (ix iy : Nat) :
    w.neighboursChecked ix iy = some (w.neighbours ix iy) := by
  unfold World.neighboursChecked World.neighbours
  rw [get_cell_with_borderChecked_eq w hv hnx hny ((ix : Int) - 1) ((iy : Int) - 1),
    get_cell_with_borderChecked_eq w hv hnx hny (ix : Int) ((iy : Int) - 1),
    get_cell_with_borderChecked_eq w hv hnx hny ((ix : Int) + 1) ((iy : Int) - 1),
    get_cell_with_borderChecked_eq w hv hnx hny ((ix : Int) - 1) (iy : Int),
    get_cell_with_borderChecked_eq w hv hnx hny ((ix : Int) + 1) (iy : Int),
    get_cell_with_borderChecked_eq w hv hnx hny ((ix : Int) - 1) ((iy : Int) + 1),
    get_cell_with_borderChecked_eq w hv hnx hny (ix : Int) ((iy : Int) + 1),
    get_cell_with_borderChecked_eq w hv hnx hny ((ix : Int) + 1) ((iy : Int) + 1)]
  rfl

theorem next_cell_valueChecked_eq (w : World)
    (hv : w.cells.length = w.nx * w.ny) (ix iy : Nat)
    (hx : ix < w.nx) (hy : iy < w.ny) :
    w.next_cell_valueChecked ix iy = some (w.next_cell_value ix iy) := by
  have hb : w.bit_index ix iy < w.cells.length := by
    have := bit_index_lt w ix iy hx hy
    omega
  unfold World.next_cell_valueChecked
  rw [cellOpt_eq_cell w ix iy hb,
    neighboursChecked_eq w hv (by omega) (by omega) ix iy]
  simp only [Option.bind_eq_bind, Option.some_bind]
  rfl

/-- An `Option`-monadic fold agrees with the pure fold when every step
succeeds, tracked through an invariant on the accumulator. -/
theorem foldlM_option_eq_foldl {α β : Type} (P : β → Prop)
    (f : β → α → Option β) (g : β → α → β) (l : List α)
    (hg : ∀ b a, P b → a ∈ l → P (g b a))
    (hf : ∀ b a, P b → a ∈ l → f b a = some (g b a))
    (buf : β) (hP : P buf) :
    l.foldlM f buf = some (l.foldl g buf) := by
  induction l generalizing buf with
  | nil => rfl
  | cons a l ih =>
      have h1 : f buf a = some (g buf a) :=
        hf buf a hP (List.mem_cons_self a l)
      simp only [List.foldlM_cons, h1, Option.bind_eq_bind, Option.some_bind,
        List.foldl_cons]
      exact ih (fun b x hb hx => hg b x hb (List.mem_cons_of_mem a hx))
        (fun b x hb hx => hf b x hb (List.mem_cons_of_mem a hx))
        (g buf a) (hg buf a hP (List.mem_cons_self a l))

/-- On a validly constructed world `next` never fails: the checked
transition returns exactly the unchecked one. -/
theorem nextChecked_eq_next (w : World) (hv : w.cells.length = w.nx * w.ny) :
    w.nextChecked = some w.next := by
  have hrow : ∀ (buf : List Bool) (iy : Nat), buf.length = w.cells.length →
      iy ∈ List.range w.ny →
      ((List.range w.nx).foldlM (fun buf2 ix => do
        let v ← w.next_cell_valueChecked ix iy
        if w.bit_index ix iy < buf2.length then pure (buf2.set (w.bit_index ix iy) v)
        else none) buf : Option (List Bool))
      = some ((List.range w.nx).foldl (fun buf2 ix =>
          buf2.set (w.bit_index ix iy) (w.next_cell_value ix iy)) buf) := by
    intro buf iy hb hiy
    have hiy' : iy < w.ny := List.mem_range.mp hiy
    refine foldlM_option_eq_foldl (fun buf2 => buf2.length = w.cells.length) _ _
      (List.range w.nx) ?_ ?_ buf hb
    · intro buf2 ix hb2 _
      have hb2' : buf2.length = w.cells.length := hb2
      show (buf2.set (w.bit_index ix iy) (w.next_cell_value ix iy)).length =
        w.cells.length
      rw [List.length_set]
      exact hb2'
    · intro buf2 ix hb2 hix
      have hb2' : buf2.length = w.cells.length := hb2
      have hix' : ix < w.nx := List.mem_range.mp hix
      rw [next_cell_valueChecked_eq w hv ix iy hix' hiy']
      have hbi : w.bit_index ix iy < buf2.length := by
        have := bit_index_lt w ix iy hix' hiy'
        omega
      simp only [Option.bind_eq_bind, Option.some_bind, if_pos hbi]
      rfl
  have hout : ∀ (buf : List Bool) (iy : Nat), buf.length = w.cells.length →
      iy ∈ List.range w.ny →
      ((List.range w.nx).foldl (fun buf2 ix =>
        buf2.set (w.bit_index ix iy) (w.next_cell_value ix iy)) buf).length =
      w.cells.length := by
    intro buf iy hb _
    rw [foldl_set_length]
    exact hb
  unfold World.nextChecked World.next
  rw [foldlM_option_eq_foldl (fun buf => buf.length = w.cells.length) _ _
    (List.range w.ny) hout hrow (List.replicate w.cells.length false)
    (List.length_replicate _ _)]
  simp only [Option.bind_eq_bind, Option.some_bind]
  rfl

/-! ### Claims -/

/-- C1: for every validly constructed world and in-grid coordinate, `next`
sets the cell at `(ix, iy)` to Alive iff its alive Moore-neighbour count
(computed from the pre-call matrix, with out-of-grid neighbours resolved per
the active boundary mode) is 3, or is 2 while the cell was Alive; otherwise
Dead. The right-hand side depends only on the pre-call world `w`, so the
result never depends on cells already updated in the same pass. -/
theorem claim_next_rule (w : World) (hv : w.cells.length = w.nx * w.ny)
    (ix iy : Nat) (hx : ix < w.nx) (hy : iy < w.ny) :
    ((w.next).cell ix iy = CELL_ALIVE ↔
      (w.num_alive_neighbours ix iy = 3 ∨
       (w.num_alive_neighbours ix iy = 2 ∧ w.cell ix iy = CELL_ALIVE))) ∧
    ((w.next).cell ix iy ≠ CELL_ALIVE → (w.next).cell ix iy = CELL_DEAD) := by
  rw [next_cell_get w hv ix iy hx hy]
  unfold World.next_cell_value
  cases hc : w.cell ix iy
  all_goals split_ifs
  all_goals simp_all [CELL_ALIVE, CELL_DEAD]
  all_goals omega

theorem claim_next_rule_witness :
    (⟨2, 2, [true, true, true, true], WorldBound.Plane⟩ : World).next.cell 0 0 =
        CELL_ALIVE ↔
      ((⟨2, 2, [true, true, true, true], WorldBound.Plane⟩ : World).num_alive_neighbours
          0 0 = 3 ∨
       ((⟨2, 2, [true, true, true, true], WorldBound.Plane⟩ : World).num_alive_neighbours
          0 0 = 2 ∧
        (⟨2, 2, [true, true, true, true], WorldBound.Plane⟩ : World).cell 0 0 =
          CELL_ALIVE)) :=
  (claim_next_rule _ (by decide) 0 0 (by decide) (by decide)).1

/-- C2, counterexample: the claim asserts the wrapped index is the proper
modulo `((c % b) + b) % b` for every signed `c`, but at `c = -21`, `b = 10`
the code yields `1` while the proper modulo is `9`; on a 10-wide torus world
alive only at `x = 9` the resolution therefore reads a Dead cell where the
claimed formula designates the Alive one. -/
theorem claim_torus_modulo_cex :
    get_index_with_cyclic_bound (-21) 10 = 1 ∧
    ((-21 : Int) % 10 + 10) % 10 = 9 ∧
    (⟨10, 1, [false, false, false, false, false, false, false, false, false, true],
      WorldBound.Torus⟩ : World).get_cell_with_border (-21) 0 = CELL_DEAD ∧
    (⟨10, 1, [false, false, false, false, false, false, false, false, false, true],
      WorldBound.Torus⟩ : World).cell 9 0 = CELL_ALIVE := by
  refine ⟨by decide, by decide, by decide, by decide⟩

/-- C2, amended: for a positive bound `b` and any coordinate `c ≥ -b` — in
particular every coordinate `next()` ever resolves, since its offsets are
`±1` from in-range values — the wrapped index is the proper modulo
`((c % b) + b) % b`, and under `Torus` the resolution reads the stored cell at
the wrapped in-range coordinates. (For `c < -b` the code instead returns
`|(c + b) tmod b|`, which stays in range but can differ from the proper
modulo, as the counterexample shows.) -/
theorem claim_torus_modulo_amended (w : World) (hb : w.border = WorldBound.Torus)
    (hnx : 0 < w.nx) (hny : 0 < w.ny) (ix iy : Int)
    (hx : -(w.nx : Int) ≤ ix) (hy : -(w.ny : Int) ≤ iy) :
    get_index_with_cyclic_bound ix (w.nx : Int) = ((ix % w.nx) + w.nx) % w.nx ∧
    get_index_with_cyclic_bound iy (w.ny : Int) = ((iy % w.ny) + w.ny) % w.ny ∧
    w.get_cell_with_border ix iy =
      w.cell (((ix % w.nx) + w.nx) % w.nx).toNat (((iy % w.ny) + w.ny) % w.ny).toNat := by
  have h1 := cyclic_bound_eq_proper_mod ix (w.nx : Int) (by omega) hx
  have h2 := cyclic_bound_eq_proper_mod iy (w.ny : Int) (by omega) hy
  refine ⟨h1, h2, ?_⟩
  unfold World.get_cell_with_border
  rw [hb, h1, h2]

theorem claim_torus_modulo_amended_witness :
    get_index_with_cyclic_bound (-1) ((10 : Nat) : Int) =
        (((-1 : Int) % (10 : Nat)) + (10 : Nat)) % (10 : Nat) ∧
    get_index_with_cyclic_bound 0 ((1 : Nat) : Int) =
        (((0 : Int) % (1 : Nat)) + (1 : Nat)) % (1 : Nat) ∧
    (⟨10, 1, [false, false, false, false, false, false, false, false, false, true],
      WorldBound.Torus⟩ : World).get_cell_with_border (-1) 0 =
      (⟨10, 1, [false, false, false, false, false, false, false, false, false, true],
        WorldBound.Torus⟩ : World).cell
        ((((-1 : Int) % (10 : Nat)) + (10 : Nat)) % (10 : Nat)).toNat
        ((((0 : Int) % (1 : Nat)) + (1 : Nat)) % (1 : Nat)).toNat :=
  claim_torus_modulo_amended
    (⟨10, 1, [false, false, false, false, false, false, false, false, false, true],
      WorldBound.Torus⟩ : World) rfl (by decide) (by decide) (-1) 0
    (by decide) (by decide)

/-- C3, counterexample: on a validly constructed 2×2 world, `cell(2, 0)` has
`ix = 2 ≥ nx = 2` yet does not fail: the flat index `0 * 2 + 2 = 2` is still
inside the bit vector, so the call returns the stored bit of logical
coordinate `(0, 1)` instead of an `OutOfBounds` failure. -/
theorem claim_cell_oob_cex :
    World.new 2 2 [false, false, true, false] =
      Except.ok (⟨2, 2, [false, false, true, false], WorldBound.Plane⟩ : World) ∧
    (⟨2, 2, [false, false, true, false], WorldBound.Plane⟩ : World).cellChecked 2 0 =
      Except.ok true := by
  exact ⟨rfl, rfl⟩

/-- C3, amended: direct cell access fails with `OutOfBounds` exactly when the
flat index `iy * nx + ix` falls outside the `nx * ny` cell matrix (not
whenever `ix ≥ nx` or `iy ≥ ny`: an overflowing `ix` whose flat index is
still in range silently reads another coordinate's stored state); for
in-range coordinates it returns the stored state at that coordinate. -/
theorem claim_cell_oob_amended (w : World) (hv : w.cells.length = w.nx * w.ny)
    (ix iy : Nat) :
    (w.cellChecked ix iy = Except.error WorldError.OutOfBounds ↔
      w.nx * w.ny ≤ iy * w.nx + ix) ∧
    (ix < w.nx → iy < w.ny → w.cellChecked ix iy = Except.ok (w.cell ix iy)) := by
  constructor
  · unfold World.cellChecked
    rcases hget : w.cells[w.bit_index ix iy]? with _ | b
    · rw [List.getElem?_eq_none_iff] at hget
      simp only [World.bit_index] at hget
      constructor
      · intro _
        omega
      · intro _
        rfl
    · have hlt : w.bit_index ix iy < w.cells.length := by
        by_contra hc
        push_neg at hc
        rw [List.getElem?_eq_none hc] at hget
        cases hget
      simp only [World.bit_index] at hlt
      constructor
      · intro h
        exact absurd h (by simp)
      · intro h
        omega
  · intro hx hy
    have hb : w.bit_index ix iy < w.cells.length := by
      have := bit_index_lt w ix iy hx hy
      omega
    unfold World.cellChecked World.cell
    rw [List.getElem?_eq_getElem hb, List.getD_eq_getElem?_getD,
      List.getElem?_eq_getElem hb]
    rfl

theorem claim_cell_oob_amended_witness :
    ((⟨2, 2, [false, false, true, false], WorldBound.Plane⟩ : World).cellChecked 0 2 =
        Except.error WorldError.OutOfBounds ↔
      2 * 2 ≤ 2 * 2 + 0) ∧
    (0 < 2 → 1 < 2 →
      (⟨2, 2, [false, false, true, false], WorldBound.Plane⟩ : World).cellChecked 0 1 =
        Except.ok ((⟨2, 2, [false, false, true, false], WorldBound.Plane⟩ : World).cell
          0 1)) :=
  ⟨(claim_cell_oob_amended _ (by decide) 0 2).1,
   fun _ _ => (claim_cell_oob_amended _ (by decide) 0 1).2 (by decide) (by decide)⟩

/-- C4: construction fails with `InvalidSize` exactly on a length mismatch,
and on a matching length succeeds with the cell list stored unchanged
(nothing is truncated or padded). -/
theorem claim_new_invalid_size (nx ny : Nat) (cells : List Bool) :
    (cells.length ≠ nx * ny → World.new nx ny cells = Except.error WorldError.InvalidSize) ∧
    (cells.length = nx * ny →
      World.new nx ny cells = Except.ok (⟨nx, ny, cells, WorldBound.Plane⟩ : World)) := by
  constructor
  · intro h
    simp [World.new, h]
  · intro h
    simp [World.new, h, to_bitvec_eq_self]

theorem claim_new_invalid_size_witness :
    World.new 2 2 [true] = Except.error WorldError.InvalidSize ∧
    World.new 1 2 [true, false] = Except.ok (⟨1, 2, [true, false], WorldBound.Plane⟩ : World) :=
  ⟨(claim_new_invalid_size 2 2 [true]).1 (by decide),
   (claim_new_invalid_size 1 2 [true, false]).2 (by decide)⟩

/-- C5, counterexample: the constructor does not require positive dimensions —
`World::new(0, 0, [])` has `nx = 0` yet succeeds (the only check is
`cells.len() == nx * ny`), refuting "for every input where nx = 0 or ny = 0,
construction fails with InvalidSize". -/
theorem claim_new_zero_dims_cex :
    World.new 0 0 [] = Except.ok (⟨0, 0, [], WorldBound.Plane⟩ : World) ∧
    World.new 0 3 [] = Except.ok (⟨0, 3, [], WorldBound.Plane⟩ : World) := by
  exact ⟨rfl, rfl⟩

/-- C5, amended: construction requires only `cells.len() = nx * ny` — zero
dimensions are accepted; whenever the length matches it yields a world with
the given dimensions, the given cells and boundary mode `Plane` (the
generation counter lives in the shell and starts at 0 there). -/
theorem claim_new_zero_dims_amended (nx ny : Nat) (cells : List Bool)
    (h : cells.length = nx * ny) :
    World.new nx ny cells = Except.ok (⟨nx, ny, cells, WorldBound.Plane⟩ : World) := by
  simp [World.new, h, to_bitvec_eq_self]

theorem claim_new_zero_dims_amended_witness :
    World.new 0 5 [] = Except.ok (⟨0, 5, [], WorldBound.Plane⟩ : World) :=
  claim_new_zero_dims_amended 0 5 [] (by decide)

/-- C6: on a validly constructed world — any dimensions, any content, either
boundary mode — `next` and the boundary-mode setter never fail: every index
computed during the pass is in bounds, so the checked transition (where every
potentially panicking access is guarded) returns exactly the unchecked
result. -/
theorem claim_next_never_fails (w : World) (hv : w.cells.length = w.nx * w.ny) :
    w.nextChecked = some w.next ∧
    ∀ b, (w.set_border b).nextChecked = some (w.set_border b).next := by
  exact ⟨nextChecked_eq_next w hv, fun b => nextChecked_eq_next _ hv⟩

theorem claim_next_never_fails_witness :
    (⟨2, 2, [true, false, false, true], WorldBound.Torus⟩ : World).nextChecked =
      some (⟨2, 2, [true, false, false, true], WorldBound.Torus⟩ : World).next :=
  (claim_next_never_fails _ (by decide)).1

/-- C7: for every cell list of matching length, construction succeeds and
`cell(ix, iy)` reproduces the input entry `cells[iy * nx + ix]` at every
in-range coordinate. -/
theorem claim_new_roundtrip (nx ny : Nat) (cells : List Bool)
    (h : cells.length = nx * ny) :
    ∃ w : World, World.new nx ny cells = Except.ok w ∧
      ∀ ix iy : Nat, ix < nx → iy < ny →
        w.cell ix iy = cells.getD (iy * nx + ix) false := by
  refine ⟨⟨nx, ny, cells, WorldBound.Plane⟩, by simp [World.new, h, to_bitvec_eq_self],
    fun ix iy _ _ => rfl⟩

theorem claim_new_roundtrip_witness :
    ∃ w : World, World.new 2 1 [true, false] = Except.ok w ∧
      ∀ ix iy : Nat, ix < 2 → iy < 1 →
        w.cell ix iy = [true, false].getD (iy * 2 + ix) false :=
  claim_new_roundtrip 2 1 [true, false] (by decide)

/-- C9: the boundary-mode setter is a frame-preserving mutation — it changes
only the mode field, leaving dimensions and the whole cell matrix untouched;
in-range reads are unaffected and subsequent neighbour resolution behaves as
on a world whose only difference is the new mode. -/
theorem claim_set_border_frame (w : World) (b : WorldBound) :
    (w.set_border b).nx = w.nx ∧ (w.set_border b).ny = w.ny ∧
    (w.set_border b).cells = w.cells ∧ (w.set_border b).border = b ∧
    (∀ ix iy : Nat, (w.set_border b).cell ix iy = w.cell ix iy) ∧
    (∀ ix iy : Nat, (w.set_border b).cellChecked ix iy = w.cellChecked ix iy) ∧
    (∀ ix iy : Int, (w.set_border b).get_cell_with_border ix iy =
      World.get_cell_with_border (⟨w.nx, w.ny, w.cells, b⟩ : World) ix iy) :=
  ⟨rfl, rfl, rfl, rfl, fun _ _ => rfl, fun _ _ => rfl, fun _ _ => rfl⟩

/-- C8, counterexample: the shell's generation counter (the `World` itself has
no counter field) is advanced with `u64::saturating_add(1)`, so a tick taken
at `u64::MAX` completes without incrementing the counter by one. -/
theorem claim_generation_cex :
    (App.tick (⟨U64_MAX, AppState.Run, 1, 1, ⟨1, 1, [false], WorldBound.Plane⟩,
        0, 0⟩ : App)).gen ≠
      (⟨U64_MAX, AppState.Run, 1, 1, ⟨1, 1, [false], WorldBound.Plane⟩,
        0, 0⟩ : App).gen + 1 := by
  decide

/-- C8, amended: the generation counter lives in the shell (`App.gen`), starts
at 0 on construction, and each tick taken in the `Run` state — the only way
`next()` is ever invoked — advances the world one generation and increments
the counter by exactly one except at `u64::MAX`, where it saturates; it is
never decreased, and the resulting grid is independent of the counter's
value. -/
theorem claim_generation_amended (a : App) (hg : a.gen ≤ U64_MAX) :
    (a.state = AppState.Run →
      (App.tick a).world = a.world.next ∧
      a.gen ≤ (App.tick a).gen ∧
      ((App.tick a).gen = a.gen + 1 ∨
       (a.gen = U64_MAX ∧ (App.tick a).gen = U64_MAX))) ∧
    (a.state ≠ AppState.Run → App.tick a = a) ∧
    (∀ g : Nat, (App.tick { a with gen := g }).world = (App.tick a).world) ∧
    (∀ cells : List Bool, ∀ a0 : App,
      App.default_with cells = Except.ok a0 → a0.gen = 0) := by
  refine ⟨?_, ?_, ?_, ?_⟩
  · intro h
    unfold App.tick
    rw [if_pos h]
    refine ⟨rfl, ?_, ?_⟩
    · show a.gen ≤ u64_saturating_succ a.gen
      unfold u64_saturating_succ
      omega
    · show u64_saturating_succ a.gen = a.gen + 1 ∨
        (a.gen = U64_MAX ∧ u64_saturating_succ a.gen = U64_MAX)
      unfold u64_saturating_succ at *
      omega
  · intro h
    unfold App.tick
    rw [if_neg h]
  · intro g
    by_cases h : a.state = AppState.Run
    · simp [App.tick, h]
    · simp [App.tick, h]
  · intro cells a0 h
    unfold App.default_with at h
    cases hw : World.new 120 60 cells with
    | error e =>
        rw [hw] at h
        simp [Except.map] at h
    | ok w =>
        rw [hw] at h
        simp only [Except.map, Except.ok.injEq] at h
        rw [← h]

theorem claim_generation_amended_witness :
    (App.tick (⟨0, AppState.Run, 1, 1, ⟨1, 1, [false], WorldBound.Plane⟩,
        0, 0⟩ : App)).world =
      (⟨1, 1, [false], WorldBound.Plane⟩ : World).next :=
  ((claim_generation_amended
    (⟨0, AppState.Run, 1, 1, ⟨1, 1, [false], WorldBound.Plane⟩, 0, 0⟩ : App)
    (by decide)).1 rfl).1

/-- C10: the claim matches the spec's and the legacy module's own tests'
intent, but the legacy code is broken. On the repository's own `rule_born`
scenario (a 3×3 grid) the legacy construction succeeds, yet its `next()`
indexes the padded bit vector out of bounds — its loops run `iy` up to
`config.ny = ny + 2` with unguarded reads at `iy * (nx + 2) + ix`, and its
writes go to index `ix + iy` — so the checked legacy transition fails where
the bounds-checked Plane-mode `next()` of `lib.rs` produces the expected
birth-rule grid. -/
theorem claim_legacy_divergence :
    (Legacy.World.new 3 3
        [true, true, false, true, false, false, false, false, false]).isSome = true ∧
    (Legacy.World.new 3 3
        [true, true, false, true, false, false, false, false, false]).bind
      Legacy.World.next = none ∧
    World.new 3 3 [true, true, false, true, false, false, false, false, false] =
      Except.ok (⟨3, 3, [true, true, false, true, false, false, false, false, false],
        WorldBound.Plane⟩ : World) ∧
    (⟨3, 3, [true, true, false, true, false, false, false, false, false],
      WorldBound.Plane⟩ : World).next.cells =
      [true, true, false, true, true, false, false, false, false] := by
  refine ⟨by decide, by decide, rfl, by decide⟩

end Lifegame
